import Mathlib

/-!
# Verification of the testdata-manager record store (src/main.c)

Shallow embedding of the core of `src/main.c`: the record table
(`TestRecord` / `Database`), the CSV codec (`load_database` /
`save_database`), and the CRUD operations (`add_new_record`,
`delete_record`, `recovery_data`'s recover step, `update_record_by_id`,
`search_records`).

Modelling conventions:
* C strings are byte sequences, modelled as `List Nat` of byte values
  (`44` is `','`, `48`–`57` are `'0'`–`'9'`, ...).  `sc` converts a Lean
  string literal to this representation.
* The backing file is a list of lines (the `'\n'` separators are
  implicit); `fgets`-line-splitting and the `strcspn(line, "\n\r")`
  truncation are modelled by `stripCR` on each line.
* `save_database` can fail only when `fopen` fails, in which case the
  file is untouched; commit success is an explicit `Bool` parameter of
  each mutating operation.
* The interactive confirmation prompts (`get_yes_no`) and input
  acquisition (`get_valid_input`) belong to the excluded CLI shell; the
  operations below model the core state transition once the inputs are
  acquired and the action confirmed.
* C `int` arithmetic is modelled without overflow (ids and counts stay
  far below `2^31` at the stated capacity of 10000 records).
-/

namespace TDM

/-- Byte-level model of C strings. -/
abbrev CStr := List Nat

/-- Convert a Lean string literal to its byte-value list. -/
def sc (s : String) : CStr := s.data.map Char.toNat

/-- C `isspace` on the default locale: space, \t, \n, \v, \f, \r. -/
def isSpaceC (c : Nat) : Bool := c == 32 || (9 ≤ c && c ≤ 13)

/-- C `isdigit`: `'0'`–`'9'`. -/
def isDigitC (c : Nat) : Bool := 48 ≤ c && c ≤ 57

/-- C `tolower` on the default locale: `'A'`–`'Z'` map down by 32. -/
def low (c : Nat) : Nat := if 65 ≤ c ∧ c ≤ 90 then c + 32 else c

/-- Lowercase image of a string; `strcasecmp(a,b) == 0` iff `lcmap a = lcmap b`. -/
def lcmap (s : CStr) : CStr := s.map low

/-- The `TestResult` enum of main.c (`FAILED=0, PASSED, PENDING, SUCCESS,
INVALID_RESULT=-1`). -/
inductive TestResult
  | failed
  | passed
  | pending
  | success
  | invalid
deriving DecidableEq, Repr

/-- The `TestRecord` struct: id, the two bounded text fields, the result
enum, and the `active` flag (a C `int`, not a boolean). -/
structure TestRecord where
  test_id : Nat
  system_name : CStr
  test_type : CStr
  test_result : TestResult
  active : Int
deriving DecidableEq, Repr

/-- The `Database` struct: the record table (`records[]` with `count`)
and the id counter.  The bound `MAX_RECORDS = 10000` is enforced by the
operations; `filename` is modelled by passing the file contents
alongside. -/
structure Database where
  records : List TestRecord
  next_id : Nat
deriving DecidableEq, Repr

/-- `MAX_RECORDS` of main.c. -/
def MAX_RECORDS : Nat := 10000

/-! ## Numeric parsing and printing (`atoi`, `strtol`, `printf %d`) -/

/-- Accumulate the leading run of decimal digits, as `atoi`/`strtol` do
after sign handling; stops at the first non-digit. -/
def digitsValAcc : CStr → Nat → Nat
  | [], acc => acc
  | c :: r, acc => if isDigitC c then digitsValAcc r (acc * 10 + (c - 48)) else acc

/-- C `atoi`: skip leading whitespace, optional sign, leading digit run;
trailing garbage is ignored. -/
def atoi (s : CStr) : Int :=
  match s.dropWhile isSpaceC with
  | 45 :: r => - (digitsValAcc r 0 : Int)
  | 43 :: r => (digitsValAcc r 0 : Int)
  | t => (digitsValAcc t 0 : Int)

/-- `strtol(s, &endptr, 10)` together with the `*endptr == '\0'` check
used by `load_database` for the `Active` column: `some v` when the whole
string (after optional leading whitespace and sign) is a nonempty digit
run, `none` otherwise. -/
def parseIntFull (s : CStr) : Option Int :=
  match s.dropWhile isSpaceC with
  | 45 :: r => if r ≠ [] ∧ r.all isDigitC then some (-(digitsValAcc r 0 : Int)) else none
  | 43 :: r => if r ≠ [] ∧ r.all isDigitC then some ((digitsValAcc r 0 : Int)) else none
  | t => if t ≠ [] ∧ t.all isDigitC then some ((digitsValAcc t 0 : Int)) else none

/-- Big-endian decimal digits of `n`, with enough fuel to finish. -/
def natReprAux : Nat → Nat → CStr
  | 0, _ => []
  | fuel + 1, n => if n = 0 then [] else natReprAux fuel (n / 10) ++ [48 + n % 10]

/-- `printf("%d", n)` for a nonnegative value: big-endian decimal digits. -/
def natRepr (n : Nat) : CStr :=
  if n = 0 then [48] else natReprAux (n + 1) n

/-- `printf("%d", v)` for a C `int`. -/
def intRepr (v : Int) : CStr :=
  if v < 0 then 45 :: natRepr v.natAbs else natRepr v.toNat

/-! ## Line splitting (`strtok`, `strcspn`) -/

/-- Split a line at every `','` (byte 44), keeping empty pieces. -/
def splitComma : CStr → List CStr
  | [] => [[]]
  | c :: rest =>
    if c = 44 then [] :: splitComma rest
    else
      match splitComma rest with
      | t :: ts => (c :: t) :: ts
      | [] => [[c]]

/-- The sequence of tokens `strtok(line, ",")`, `strtok(NULL, ",")`, ...
produces: maximal nonempty runs between commas (runs of delimiters
collapse, leading/trailing delimiters vanish). -/
def tokens (l : CStr) : List CStr := (splitComma l).filter (fun t => !t.isEmpty)

/-- `line[strcspn(line, "\n\r")] = '\0'`: truncate at the first LF/CR. -/
def stripCR (l : CStr) : CStr := l.takeWhile (fun c => !(c == 10 || c == 13))

/-! ## Result conversion (`string_to_test_result`, `test_result_to_string`) -/

/-- `string_to_test_result`: `NULL` and unrecognized text map to the
distinguished `INVALID_RESULT`; recognition is by `strcasecmp` against
the four canonical tokens. -/
def string_to_test_result : Option CStr → TestResult
  | none => .invalid
  | some s =>
    if lcmap s = lcmap (sc "Failed") then .failed
    else if lcmap s = lcmap (sc "Passed") then .passed
    else if lcmap s = lcmap (sc "Pending") then .pending
    else if lcmap s = lcmap (sc "Success") then .success
    else .invalid

/-- `test_result_to_string`: canonical text of each result; the
out-of-range default branch prints `"Unknown"`. -/
def test_result_to_string : TestResult → CStr
  | .failed => sc "Failed"
  | .passed => sc "Passed"
  | .pending => sc "Pending"
  | .success => sc "Success"
  | .invalid => sc "Unknown"

/-! ## The codec (`load_database`, `save_database`) -/

/-- `REQUIRED_HEADER`. -/
def headerS : CStr := sc "TestID,SystemName,TestType,TestResult,Active"

/-- One iteration of the `load_database` row loop on an already-read
line: `none` when the row is skipped (`strtok` yields no token, or
`atoi` of the first token is not positive), otherwise the record built
from the first five tokens.  Missing tokens leave the `memset` defaults
(empty names, `FAILED` = 0, `active` = 0); names are `strncpy`-truncated
to 99 bytes; an unrecognized result token degrades to `PENDING`; the
`Active` token is taken by `strtol` only when it parses completely,
else 0. -/
def parseLine (l : CStr) : Option TestRecord :=
  match tokens (stripCR l) with
  | [] => none
  | t1 :: rest =>
    if 0 < atoi t1 then
      some { test_id := (atoi t1).toNat
           , system_name := ((rest.get? 0).getD []).take 99
           , test_type := ((rest.get? 1).getD []).take 99
           , test_result :=
               match rest.get? 2 with
               | none => .failed
               | some t =>
                 if string_to_test_result (some t) = .invalid then .pending
                 else string_to_test_result (some t)
           , active :=
               match rest.get? 3 with
               | none => 0
               | some t => (parseIntFull t).getD 0 }
    else none

/-- The `load_database` row loop: process lines in order while
`count < MAX_RECORDS`; skipped rows do not advance `count`. -/
def loadRows : List CStr → Nat → List TestRecord
  | [], _ => []
  | l :: rest, cnt =>
    if cnt < MAX_RECORDS then
      match parseLine l with
      | some r => r :: loadRows rest (cnt + 1)
      | none => loadRows rest cnt
    else []

/-- The running maximum id `load_database` keeps over the accepted
records (`max_id`, starting from 0). -/
def maxId (recs : List TestRecord) : Nat :=
  recs.foldl (fun m r => max m r.test_id) 0

/-- `load_database` on the contents of a readable file, given as its
list of lines: fails only when the header `fgets` fails (empty file);
the first line is skipped unexamined, the remaining rows are parsed, and
`next_id` is set to the maximum accepted id plus one. -/
def load_database : List CStr → Option Database
  | [] => none
  | _header :: rows =>
    let recs := loadRows rows 0
    some { records := recs, next_id := maxId recs + 1 }

/-- The line `save_database` prints for one record:
`"%d,%s,%s,%s,%d"`. -/
def save_line (r : TestRecord) : CStr :=
  natRepr r.test_id ++ (44 :: (r.system_name ++ (44 :: (r.test_type ++
    (44 :: (test_result_to_string r.test_result ++ (44 :: intRepr r.active)))))))

/-- `save_database`: header line followed by one line per record in
table order.  (On `fopen` failure nothing is written; the operations
model that case by leaving the file parameter unchanged.) -/
def save_lines (db : Database) : List CStr :=
  headerS :: db.records.map save_line

/-! ## Store primitives -/

/-- `find_record_by_id`: linear scan for the first record with the given
id.  The C function returns the index; the operations below mutate the
record at that index, i.e. the first match, which the `*First` helpers
target directly. -/
def find_record_by_id (recs : List TestRecord) (test_id : Nat) : Option TestRecord :=
  recs.find? (fun r => r.test_id == test_id)

/-- Set the `active` field of the first record with the given id
(`db.records[index].active = v` after `find_record_by_id`). -/
def setActiveFirst (test_id : Nat) (v : Int) : List TestRecord → List TestRecord
  | [] => []
  | r :: rest =>
    if r.test_id = test_id then { r with active := v } :: rest
    else r :: setActiveFirst test_id v rest

/-- Remove the first record with the given id by compaction: the
`for (i = index; i < count-1; i++) records[i] = records[i+1]` shift of
`delete_record` followed by `count--`. -/
def removeFirst (test_id : Nat) : List TestRecord → List TestRecord
  | [] => []
  | r :: rest =>
    if r.test_id = test_id then rest
    else r :: removeFirst test_id rest

/-- Overwrite the first record with the given id
(`db.records[index] = r'`). -/
def replaceFirst (test_id : Nat) (r' : TestRecord) : List TestRecord → List TestRecord
  | [] => []
  | r :: rest =>
    if r.test_id = test_id then r' :: rest
    else r :: replaceFirst test_id r' rest

/-- `get_next_test_id`: return `next_id`, then increment it. -/
def get_next_test_id (db : Database) : Nat × Database :=
  (db.next_id, { db with next_id := db.next_id + 1 })

/-- `create_new_csv`: fresh empty store with `next_id = 1` bound to a
header-only file. -/
def create_db : Database := { records := [], next_id := 1 }

/-! ## Operations -/

/-- Outcome of `add_new_record`; the successful and failed commits carry
the id the record was allocated. -/
inductive AddOutcome
  | dbFull
  | saved (id : Nat)
  | saveFailed (id : Nat)
deriving DecidableEq, Repr

/-- `add_new_record` on already-acquired validated inputs: refuse at
capacity before consuming an id; otherwise allocate the id, append the
record with `active = 1`, and commit; on commit failure drop the
appended record (`db.count--`) without restoring `next_id`. -/
def add_new_record (db : Database) (file : List CStr) (name ty : CStr)
    (res : TestResult) (saveOk : Bool) : Database × List CStr × AddOutcome :=
  if MAX_RECORDS ≤ db.records.length then (db, file, .dbFull)
  else
    let (id, db1) := get_next_test_id db
    let newRec : TestRecord :=
      { test_id := id, system_name := name, test_type := ty
      , test_result := res, active := 1 }
    let db2 := { db1 with records := db1.records ++ [newRec] }
    if saveOk then (db2, save_lines db2, .saved id)
    else ({ db2 with records := db1.records }, file, .saveFailed id)

/-- Outcome of `delete_record`. -/
inductive DeleteOutcome
  | notFound
  | alreadyDeleted
  | mustSoftDeleteFirst
  | saved
  | saveFailed
deriving DecidableEq, Repr

/-- `delete_record(test_id, soft_delete)`: soft delete requires a truthy
`active` (else "already deleted"), flips it to 0, commits, and on commit
failure writes `active = 1` back; permanent delete requires `active`
falsy (else "must be soft-deleted first"), removes by compaction and
commits, with no rollback of the compaction on commit failure. -/
def delete_record (db : Database) (file : List CStr) (test_id : Nat)
    (soft : Bool) (saveOk : Bool) : Database × List CStr × DeleteOutcome :=
  match find_record_by_id db.records test_id with
  | none => (db, file, .notFound)
  | some r =>
    if soft = true ∧ r.active = 0 then (db, file, .alreadyDeleted)
    else if soft = false ∧ r.active ≠ 0 then (db, file, .mustSoftDeleteFirst)
    else if soft then
      let db1 := { db with records := setActiveFirst test_id 0 db.records }
      if saveOk then (db1, save_lines db1, .saved)
      else ({ db1 with records := setActiveFirst test_id 1 db1.records }, file, .saveFailed)
    else
      let db1 := { db with records := removeFirst test_id db.records }
      if saveOk then (db1, save_lines db1, .saved)
      else (db1, file, .saveFailed)

/-- Outcome of the recover step of `recovery_data`. -/
inductive RecoverOutcome
  | notFound
  | saved
  | saveFailed
deriving DecidableEq, Repr

/-- The recover action of `recovery_data`: requires the record to exist
and be inactive ("not found in deleted records" otherwise); sets
`active = 1`, commits, and on commit failure writes `active = 0`
back. -/
def recover_record (db : Database) (file : List CStr) (test_id : Nat)
    (saveOk : Bool) : Database × List CStr × RecoverOutcome :=
  match find_record_by_id db.records test_id with
  | none => (db, file, .notFound)
  | some r =>
    if r.active ≠ 0 then (db, file, .notFound)
    else
      let db1 := { db with records := setActiveFirst test_id 1 db.records }
      if saveOk then (db1, save_lines db1, .saved)
      else ({ db1 with records := setActiveFirst test_id 0 db1.records }, file, .saveFailed)

/-- A single field assignment of the `update_record_by_id` editing loop
(`active` and `test_id` are never editable). -/
inductive Edit
  | name (v : CStr)
  | ty (v : CStr)
  | res (v : TestResult)
deriving DecidableEq, Repr

/-- Apply one field edit to the in-memory record. -/
def apply_edit (r : TestRecord) : Edit → TestRecord
  | .name v => { r with system_name := v }
  | .ty v => { r with test_type := v }
  | .res v => { r with test_result := v }

/-- Outcome of an `update_record_by_id` session. -/
inductive UpdateOutcome
  | notFound
  | cancelled
  | saved
  | saveFailed
deriving DecidableEq, Repr

/-- `update_record_by_id` as a whole session: locate by id (absent or
inactive is "not found"); the editing loop applies the field edits to
the record in place while keeping a backup; "save" commits and on
commit failure restores the backup; "cancel" restores the backup
without committing.  `doSave = false` is the cancel terminal. -/
def update_record_by_id (db : Database) (file : List CStr) (test_id : Nat)
    (edits : List Edit) (doSave : Bool) (saveOk : Bool) :
    Database × List CStr × UpdateOutcome :=
  match find_record_by_id db.records test_id with
  | none => (db, file, .notFound)
  | some r =>
    if r.active = 0 then (db, file, .notFound)
    else if doSave then
      let r' := edits.foldl apply_edit r
      let db1 := { db with records := replaceFirst test_id r' db.records }
      if saveOk then (db1, save_lines db1, .saved)
      else ({ db1 with records := replaceFirst test_id r db1.records }, file, .saveFailed)
    else (db, file, .cancelled)

/-! ## Search -/

/-- `trim_string`'s effect on the underlying buffer: only the trailing
whitespace is cut (the leading skip advances a local pointer and does
not change the buffer). -/
def trimR (l : CStr) : CStr := (l.reverse.dropWhile isSpaceC).reverse

/-- The fully trimmed view `trim_string` returns. -/
def trimS (l : CStr) : CStr := (trimR l).dropWhile isSpaceC

/-- Does `n` start `h`? (the `strncasecmp`/`strncmp` step of the
substring scans, after any case mapping). -/
def startsWithL (n h : CStr) : Bool :=
  match n, h with
  | [], _ => true
  | _ :: _, [] => false
  | a :: n', b :: h' => a == b && startsWithL n' h'

/-- `strstr(h, n) != NULL`: `n` occurs contiguously in `h`. -/
def containsSub (h n : CStr) : Bool :=
  startsWithL n h ||
    match h with
    | [] => false
    | _ :: t => containsSub t n

/-- `strcasestr(h, n) != NULL`. -/
def strcasestrB (h n : CStr) : Bool := containsSub (lcmap h) (lcmap n)

/-- The per-record match test of `search_records`: `strstr` on the
decimal id string, `strcasestr` on the two name fields and on the
canonical result text. -/
def record_matches (r : TestRecord) (q : CStr) : Bool :=
  containsSub (natRepr r.test_id) q ||
  strcasestrB r.system_name q ||
  strcasestrB r.test_type q ||
  strcasestrB (test_result_to_string r.test_result) q

/-- `search_records` on the entered query line `q`: reject when the
trimmed query is shorter than 3 bytes (`none`); otherwise return the
active records matching the right-trimmed buffer, in table order.  The
store and the file are untouched (no commit is involved). -/
def search_records (db : Database) (q : CStr) : Option (List TestRecord) :=
  if (trimS q).length < 3 then none
  else some (db.records.filter (fun r => decide (r.active ≠ 0) && record_matches r (trimR q)))

/-! ## Decimal printing and parsing lemmas -/

/-- Value of a big-endian digit-character run, as `atoi`/`strtol`
accumulate it. -/
def valBE : CStr → Nat
  | [] => 0
  | c :: r => (c - 48) * 10 ^ r.length + valBE r

theorem digitsValAcc_eq :
    ∀ (l : CStr), l.all isDigitC → ∀ acc,
      digitsValAcc l acc = acc * 10 ^ l.length + valBE l
  | [], _, acc => by simp [digitsValAcc, valBE]
  | c :: r, h, acc => by
    simp only [List.all_cons, Bool.and_eq_true] at h
    simp only [digitsValAcc, h.1, if_true, valBE, List.length_cons]
    rw [digitsValAcc_eq r h.2]
    ring

theorem valBE_append (a b : CStr) :
    valBE (a ++ b) = valBE a * 10 ^ b.length + valBE b := by
  induction a with
  | nil => simp [valBE]
  | cons c r ih =>
    rw [List.cons_append,
      show valBE (c :: (r ++ b)) = (c - 48) * 10 ^ (r ++ b).length + valBE (r ++ b) from rfl,
      ih, List.length_append,
      show valBE (c :: r) = (c - 48) * 10 ^ r.length + valBE r from rfl, pow_add]
    ring

theorem natReprAux_all_digits (fuel n : Nat) :
    ∀ c ∈ natReprAux fuel n, isDigitC c = true := by
  induction fuel generalizing n with
  | zero => simp [natReprAux]
  | succ f ih =>
    intro c hc
    unfold natReprAux at hc
    split at hc
    · cases hc
    · rcases List.mem_append.mp hc with h | h
      · exact ih _ c h
      · simp at h
        have : n % 10 < 10 := Nat.mod_lt _ (by omega)
        simp [h, isDigitC]
        omega

theorem natRepr_all_digits (n : Nat) : ∀ c ∈ natRepr n, isDigitC c = true := by
  intro c hc
  unfold natRepr at hc
  split at hc
  · simp at hc
    simp [hc, isDigitC]
  · exact natReprAux_all_digits _ _ c hc

theorem natReprAux_ne_nil (fuel n : Nat) (hn : n ≠ 0) (hf : n < fuel) :
    natReprAux fuel n ≠ [] := by
  cases fuel with
  | zero => omega
  | succ f =>
    unfold natReprAux
    rw [if_neg hn]
    simp

theorem natRepr_ne_nil (n : Nat) : natRepr n ≠ [] := by
  unfold natRepr
  split
  · simp
  · next h => exact natReprAux_ne_nil _ _ h (by omega)

theorem valBE_natReprAux (fuel : Nat) :
    ∀ n, n < fuel → valBE (natReprAux fuel n) = n := by
  induction fuel with
  | zero => omega
  | succ f ih =>
    intro n hn
    unfold natReprAux
    split
    · simp_all [valBE]
    · rw [valBE_append]
      have h10 : n / 10 < f := by omega
      rw [ih (n / 10) h10]
      simp only [List.length_cons, List.length_nil, valBE]
      have : n % 10 < 10 := Nat.mod_lt _ (by omega)
      have hdiv := Nat.div_add_mod n 10
      simp
      omega

theorem valBE_natRepr (n : Nat) : valBE (natRepr n) = n := by
  unfold natRepr
  split
  · simp_all [valBE]
  · exact valBE_natReprAux (n + 1) n (by omega)

theorem digit_not_space {c : Nat} (h : isDigitC c = true) : isSpaceC c = false := by
  simp [isDigitC] at h
  simp [isSpaceC]
  omega

theorem digit_ne_sign {c : Nat} (h : isDigitC c = true) : c ≠ 45 ∧ c ≠ 43 ∧ c ≠ 44 := by
  simp [isDigitC] at h
  omega

theorem atoi_digit_run (l : CStr) (hne : l ≠ []) (h : l.all isDigitC) :
    atoi l = (valBE l : Int) := by
  obtain ⟨c, r, rfl⟩ : ∃ c r, l = c :: r := by
    cases l with
    | nil => exact absurd rfl hne
    | cons c r => exact ⟨c, r, rfl⟩
  have hc : isDigitC c = true := by
    have := h
    simp only [List.all_cons, Bool.and_eq_true] at this
    exact this.1
  unfold atoi
  rw [List.dropWhile_cons, if_neg (by simp [digit_not_space hc])]
  have hsign := digit_ne_sign hc
  split
  · next heq => exact absurd (List.cons.inj heq).1 hsign.1
  · next heq => exact absurd (List.cons.inj heq).1 hsign.2.1
  · rw [digitsValAcc_eq _ h]
    simp

theorem atoi_natRepr (n : Nat) : atoi (natRepr n) = (n : Int) := by
  rw [atoi_digit_run _ (natRepr_ne_nil n)
        (List.all_eq_true.mpr (natRepr_all_digits n)), valBE_natRepr]

theorem parseIntFull_digit_run (l : CStr) (hne : l ≠ []) (h : l.all isDigitC) :
    parseIntFull l = some ((valBE l : Nat) : Int) := by
  obtain ⟨c, r, rfl⟩ : ∃ c r, l = c :: r := by
    cases l with
    | nil => exact absurd rfl hne
    | cons c r => exact ⟨c, r, rfl⟩
  have hc : isDigitC c = true := by
    have := h
    simp only [List.all_cons, Bool.and_eq_true] at this
    exact this.1
  unfold parseIntFull
  rw [List.dropWhile_cons, if_neg (by simp [digit_not_space hc])]
  have hsign := digit_ne_sign hc
  split
  · next heq => exact absurd (List.cons.inj heq).1 hsign.1
  · next heq => exact absurd (List.cons.inj heq).1 hsign.2.1
  · rw [if_pos ⟨by simp, h⟩, digitsValAcc_eq _ h]
    simp

theorem intRepr_chars (v : Int) : ∀ c ∈ intRepr v, c = 45 ∨ isDigitC c = true := by
  intro c hc
  unfold intRepr at hc
  split at hc
  · rcases List.mem_cons.mp hc with rfl | h
    · exact Or.inl rfl
    · exact Or.inr (natRepr_all_digits _ _ h)
  · exact Or.inr (natRepr_all_digits _ _ hc)

theorem intRepr_ne_nil (v : Int) : intRepr v ≠ [] := by
  unfold intRepr
  split
  · simp
  · exact natRepr_ne_nil _

theorem parseIntFull_intRepr (v : Int) : parseIntFull (intRepr v) = some v := by
  unfold intRepr
  split
  · next hv =>
    have hd : (natRepr v.natAbs).all isDigitC :=
      List.all_eq_true.mpr (natRepr_all_digits _)
    unfold parseIntFull
    rw [List.dropWhile_cons, if_neg (by simp [isSpaceC])]
    have hrepr := natRepr_ne_nil v.natAbs
    split
    · next heq =>
      obtain ⟨-, hr⟩ := List.cons.inj heq
      subst hr
      rw [if_pos ⟨hrepr, hd⟩, digitsValAcc_eq _ hd]
      simp only [Nat.zero_mul, Nat.zero_add, valBE_natRepr]
      congr 1
      omega
    · next heq => exact absurd (List.cons.inj heq).1 (by omega)
    · next hne _ => exact ((hne _ rfl)).elim
  · next hv =>
    rw [parseIntFull_digit_run _ (natRepr_ne_nil _)
          (List.all_eq_true.mpr (natRepr_all_digits _)), valBE_natRepr]
    congr 1
    omega

/-! ## Tokenizer lemmas -/

theorem splitComma_no_comma (l : CStr) (h : ∀ c ∈ l, c ≠ 44) :
    splitComma l = [l] := by
  induction l with
  | nil => rfl
  | cons c r ih =>
    have hc : c ≠ 44 := h c (by simp)
    simp only [splitComma, if_neg hc, ih (fun x hx => h x (by simp [hx]))]

theorem splitComma_append (a b : CStr) (h : ∀ c ∈ a, c ≠ 44) :
    splitComma (a ++ 44 :: b) = a :: splitComma b := by
  induction a with
  | nil => simp [splitComma]
  | cons c r ih =>
    have hc : c ≠ 44 := h c (by simp)
    rw [List.cons_append,
      show splitComma (c :: (r ++ 44 :: b)) =
        (if c = 44 then [] :: splitComma (r ++ 44 :: b)
         else
           match splitComma (r ++ 44 :: b) with
           | t :: ts => (c :: t) :: ts
           | [] => [[c]]) from rfl,
      if_neg hc, ih (fun x hx => h x (by simp [hx]))]

theorem tokens_cons_field (f rest : CStr) (hne : f ≠ [])
    (h : ∀ c ∈ f, c ≠ 44) :
    tokens (f ++ 44 :: rest) = f :: tokens rest := by
  unfold tokens
  rw [splitComma_append f rest h]
  simp [hne]

theorem tokens_single_field (f : CStr) (hne : f ≠ []) (h : ∀ c ∈ f, c ≠ 44) :
    tokens f = [f] := by
  unfold tokens
  rw [splitComma_no_comma f h]
  simp [hne]

theorem stripCR_eq_self (l : CStr) (h : ∀ c ∈ l, c ≠ 10 ∧ c ≠ 13) :
    stripCR l = l := by
  induction l with
  | nil => rfl
  | cons c r ih =>
    have hc := h c (by simp)
    unfold stripCR
    rw [List.takeWhile_cons, if_pos (by simp [hc.1, hc.2])]
    rw [show (List.takeWhile (fun c => !(c == 10 || c == 13)) r) = stripCR r from rfl,
      ih (fun x hx => h x (by simp [hx]))]

/-! ## The round trip on one record -/

/-- A field value the five-column format can carry losslessly: nonempty,
within the 100-byte record buffers, and free of the delimiter and of
line breaks. -/
def goodField (f : CStr) : Prop :=
  f ≠ [] ∧ f.length ≤ 99 ∧ ∀ c ∈ f, c ≠ 44 ∧ c ≠ 10 ∧ c ≠ 13

/-- A record `save_database` can write and `load_database` read back
unchanged: positive id, good text fields, a genuine result value. -/
def goodRecord (r : TestRecord) : Prop :=
  0 < r.test_id ∧ goodField r.system_name ∧ goodField r.test_type ∧
    r.test_result ≠ .invalid

theorem result_string_chars (res : TestResult) :
    ∀ c ∈ test_result_to_string res, c ≠ 44 ∧ c ≠ 10 ∧ c ≠ 13 := by
  cases res <;> decide

theorem result_string_ne_nil (res : TestResult) :
    test_result_to_string res ≠ [] := by
  cases res <;> decide

theorem result_string_roundtrip (res : TestResult) :
    string_to_test_result (some (test_result_to_string res)) = res := by
  cases res <;> rfl

theorem natRepr_no_comma (n : Nat) : ∀ c ∈ natRepr n, c ≠ 44 :=
  fun c hc => (digit_ne_sign (natRepr_all_digits _ c hc)).2.2

theorem intRepr_no_comma (v : Int) : ∀ c ∈ intRepr v, c ≠ 44 := by
  intro c hc
  rcases intRepr_chars _ c hc with rfl | h
  · omega
  · exact (digit_ne_sign h).2.2

theorem save_line_tokens (r : TestRecord) (hg : goodRecord r) :
    tokens (save_line r) =
      [natRepr r.test_id, r.system_name, r.test_type,
        test_result_to_string r.test_result, intRepr r.active] := by
  obtain ⟨hid, ⟨hn1, hn2, hn3⟩, ⟨ht1, ht2, ht3⟩, hres⟩ := hg
  unfold save_line
  rw [tokens_cons_field (natRepr r.test_id) _ (natRepr_ne_nil _) (natRepr_no_comma _),
    tokens_cons_field r.system_name _ hn1 (fun c hc => (hn3 c hc).1),
    tokens_cons_field r.test_type _ ht1 (fun c hc => (ht3 c hc).1),
    tokens_cons_field (test_result_to_string r.test_result) _ (result_string_ne_nil _)
      (fun c hc => (result_string_chars _ c hc).1),
    tokens_single_field (intRepr r.active) (intRepr_ne_nil _) (intRepr_no_comma _)]

theorem save_line_no_break (r : TestRecord) (hg : goodRecord r) :
    ∀ c ∈ save_line r, c ≠ 10 ∧ c ≠ 13 := by
  obtain ⟨hid, ⟨hn1, hn2, hn3⟩, ⟨ht1, ht2, ht3⟩, hres⟩ := hg
  intro c hc
  unfold save_line at hc
  simp only [List.mem_append, List.mem_cons] at hc
  have hnum : ∀ {m : Nat}, isDigitC m = true → m ≠ 10 ∧ m ≠ 13 := by
    intro m hm
    simp [isDigitC] at hm
    omega
  rcases hc with h | rfl | h | rfl | h | rfl | h | rfl | h
  · exact hnum (natRepr_all_digits _ c h)
  · omega
  · exact ⟨(hn3 c h).2.1, (hn3 c h).2.2⟩
  · omega
  · exact ⟨(ht3 c h).2.1, (ht3 c h).2.2⟩
  · omega
  · exact ⟨(result_string_chars _ c h).2.1, (result_string_chars _ c h).2.2⟩
  · omega
  · rcases intRepr_chars _ c h with rfl | hd
    · omega
    · exact hnum hd

theorem parseLine_save_line (r : TestRecord) (hg : goodRecord r) :
    parseLine (save_line r) = some r := by
  have hstrip : stripCR (save_line r) = save_line r :=
    stripCR_eq_self _ (save_line_no_break r hg)
  obtain ⟨hid, ⟨hn1, hn2, hn3⟩, ⟨ht1, ht2, ht3⟩, hres⟩ := hg
  unfold parseLine
  rw [hstrip, save_line_tokens r ⟨hid, ⟨hn1, hn2, hn3⟩, ⟨ht1, ht2, ht3⟩, hres⟩]
  simp only [atoi_natRepr, List.get?, Option.getD_some, parseIntFull_intRepr,
    result_string_roundtrip, Int.toNat_ofNat, if_neg hres]
  rw [if_pos (show (0 : Int) < (r.test_id : Int) by exact_mod_cast hid),
    List.take_of_length_le hn2, List.take_of_length_le ht2]

/-! ## Row-loop lemmas -/

theorem loadRows_map_save (l : List TestRecord) (c : Nat)
    (hcap : c + l.length ≤ MAX_RECORDS) (hg : ∀ r ∈ l, goodRecord r) :
    loadRows (l.map save_line) c = l := by
  induction l generalizing c with
  | nil => rfl
  | cons r rest ih =>
    have hcr : c < MAX_RECORDS := by
      have := hcap
      simp [List.length_cons] at this
      omega
    simp only [List.map_cons, loadRows, if_pos hcr,
      parseLine_save_line r (hg r (by simp))]
    rw [ih (c + 1) (by have := hcap; simp at this ⊢; omega)
      (fun x hx => hg x (by simp [hx]))]

theorem loadRows_eq_filterMap (ls : List CStr) (c : Nat) :
    loadRows ls c = (ls.filterMap parseLine).take (MAX_RECORDS - c) := by
  induction ls generalizing c with
  | nil => simp [loadRows]
  | cons l rest ih =>
    by_cases hc : c < MAX_RECORDS
    · rw [show loadRows (l :: rest) c =
          (if c < MAX_RECORDS then
            match parseLine l with
            | some r => r :: loadRows rest (c + 1)
            | none => loadRows rest c
          else []) from rfl, if_pos hc]
      cases hpl : parseLine l with
      | some r =>
        show r :: loadRows rest (c + 1) = _
        rw [List.filterMap_cons_some hpl, ih (c + 1)]
        have : MAX_RECORDS - c = (MAX_RECORDS - (c + 1)) + 1 := by omega
        rw [this, List.take_succ_cons]
      | none =>
        show loadRows rest c = _
        rw [List.filterMap_cons_none hpl, ih c]
    · rw [show loadRows (l :: rest) c =
          (if c < MAX_RECORDS then
            match parseLine l with
            | some r => r :: loadRows rest (c + 1)
            | none => loadRows rest c
          else []) from rfl, if_neg hc]
      have : MAX_RECORDS - c = 0 := by omega
      rw [this, List.take_zero]

/-! ## `next_id` lemmas -/

theorem le_foldl_max (l : List TestRecord) (a : Nat) :
    a ≤ l.foldl (fun m r => max m r.test_id) a := by
  induction l generalizing a with
  | nil => simp
  | cons r rest ih => exact le_trans (Nat.le_max_left _ _) (ih (max a r.test_id))

theorem foldl_max_mono (l : List TestRecord) (a b : Nat) (h : a ≤ b) :
    l.foldl (fun m r => max m r.test_id) a ≤ l.foldl (fun m r => max m r.test_id) b := by
  induction l generalizing a b with
  | nil => simpa
  | cons r rest ih =>
    simp only [List.foldl_cons]
    exact ih _ _ (by omega)

theorem mem_le_maxId (l : List TestRecord) (r : TestRecord) (h : r ∈ l) :
    r.test_id ≤ maxId l := by
  unfold maxId
  induction l with
  | nil => cases h
  | cons x rest ih =>
    simp only [List.foldl_cons]
    rcases List.mem_cons.mp h with rfl | h
    · exact le_trans (Nat.le_max_right _ _) (le_foldl_max rest _)
    · exact le_trans (ih h) (foldl_max_mono rest _ _ (Nat.le_max_left _ _))

/-! ## First-match decomposition lemmas -/

theorem find_decomp (l : List TestRecord) (id : Nat) (r : TestRecord)
    (h : find_record_by_id l id = some r) :
    r.test_id = id ∧ ∃ p s, l = p ++ r :: s ∧ ∀ x ∈ p, x.test_id ≠ id := by
  induction l with
  | nil => cases h
  | cons x rest ih =>
    unfold find_record_by_id at h
    rw [List.find?_cons] at h
    by_cases hx : x.test_id = id
    · rw [show (x.test_id == id) = true from beq_iff_eq.mpr hx] at h
      obtain rfl := Option.some.inj h
      exact ⟨hx, [], rest, rfl, by simp⟩
    · rw [show (x.test_id == id) = false from beq_eq_false_iff_ne.mpr hx] at h
      obtain ⟨hr, p, s, rfl, hp⟩ := ih h
      exact ⟨hr, x :: p, s, rfl, by
        intro y hy
        rcases List.mem_cons.mp hy with rfl | hy
        · exact hx
        · exact hp y hy⟩

theorem setActiveFirst_decomp (p s : List TestRecord) (r : TestRecord)
    (id : Nat) (v : Int) (hp : ∀ x ∈ p, x.test_id ≠ id) (hr : r.test_id = id) :
    setActiveFirst id v (p ++ r :: s) = p ++ { r with active := v } :: s := by
  induction p with
  | nil => simp [setActiveFirst, hr]
  | cons x rest ih =>
    rw [List.cons_append, show setActiveFirst id v (x :: (rest ++ r :: s)) =
        (if x.test_id = id then { x with active := v } :: (rest ++ r :: s)
         else x :: setActiveFirst id v (rest ++ r :: s)) from rfl,
      if_neg (hp x (by simp)), ih (fun y hy => hp y (by simp [hy]))]
    rfl

theorem removeFirst_decomp (p s : List TestRecord) (r : TestRecord)
    (id : Nat) (hp : ∀ x ∈ p, x.test_id ≠ id) (hr : r.test_id = id) :
    removeFirst id (p ++ r :: s) = p ++ s := by
  induction p with
  | nil => simp [removeFirst, hr]
  | cons x rest ih =>
    rw [List.cons_append, show removeFirst id (x :: (rest ++ r :: s)) =
        (if x.test_id = id then rest ++ r :: s
         else x :: removeFirst id (rest ++ r :: s)) from rfl,
      if_neg (hp x (by simp)), ih (fun y hy => hp y (by simp [hy]))]
    rfl

theorem replaceFirst_decomp (p s : List TestRecord) (r r' : TestRecord)
    (id : Nat) (hp : ∀ x ∈ p, x.test_id ≠ id) (hr : r.test_id = id) :
    replaceFirst id r' (p ++ r :: s) = p ++ r' :: s := by
  induction p with
  | nil => simp [replaceFirst, hr]
  | cons x rest ih =>
    rw [List.cons_append, show replaceFirst id r' (x :: (rest ++ r :: s)) =
        (if x.test_id = id then r' :: (rest ++ r :: s)
         else x :: replaceFirst id r' (rest ++ r :: s)) from rfl,
      if_neg (hp x (by simp)), ih (fun y hy => hp y (by simp [hy]))]
    rfl

/-! ## Substring-search lemmas -/

theorem startsWithL_iff (n h : CStr) :
    startsWithL n h = true ↔ n.length ≤ h.length ∧ h.take n.length = n := by
  induction n generalizing h with
  | nil => simp [startsWithL]
  | cons a n' ih =>
    cases h with
    | nil => simp [startsWithL]
    | cons b h' =>
      rw [show startsWithL (a :: n') (b :: h') = (a == b && startsWithL n' h') from rfl]
      simp only [Bool.and_eq_true, beq_iff_eq, ih h', List.length_cons,
        List.take_succ_cons, List.cons.injEq]
      constructor
      · rintro ⟨rfl, h1, h2⟩
        exact ⟨by omega, rfl, h2⟩
      · rintro ⟨h1, rfl, h2⟩
        exact ⟨rfl, by omega, h2⟩

theorem containsSub_iff (h n : CStr) :
    containsSub h n = true ↔
      ∃ i ∈ List.range (h.length + 1),
        i + n.length ≤ h.length ∧ (h.drop i).take n.length = n := by
  induction h with
  | nil =>
    rw [show containsSub [] n = (startsWithL n [] || false) from rfl]
    simp only [Bool.or_false, startsWithL_iff, List.length_nil, List.mem_range]
    constructor
    · rintro ⟨h1, h2⟩
      exact ⟨0, by omega, by omega, by simpa using h2⟩
    · rintro ⟨i, hi, h1, h2⟩
      exact ⟨by omega, by simpa using h2⟩
  | cons c t ih =>
    rw [show containsSub (c :: t) n = (startsWithL n (c :: t) || containsSub t n) from rfl]
    simp only [Bool.or_eq_true, startsWithL_iff, ih, List.length_cons, List.mem_range]
    constructor
    · rintro (⟨h1, h2⟩ | ⟨i, hi, h1, h2⟩)
      · exact ⟨0, by omega, by simpa using h1, by simpa using h2⟩
      · exact ⟨i + 1, by omega, by omega, by simpa using h2⟩
    · rintro ⟨i, hi, h1, h2⟩
      cases i with
      | zero => exact Or.inl ⟨by simpa using h1, by simpa using h2⟩
      | succ j =>
        exact Or.inr ⟨j, by omega, by omega, by simpa using h2⟩

theorem low_digit_fix {c : Nat} (h : isDigitC c = true) : low c = c := by
  simp [isDigitC] at h
  unfold low
  rw [if_neg (by omega)]

theorem low_eq_digit {c d : Nat} (hd : isDigitC d = true) : low c = d ↔ c = d := by
  simp [isDigitC] at hd
  unfold low
  split
  · omega
  · omega

theorem lcmap_eq_digits (q s : CStr) (hs : ∀ c ∈ s, isDigitC c = true) :
    lcmap q = s ↔ q = s := by
  induction q generalizing s with
  | nil => simp [lcmap]
  | cons a q' ih =>
    cases s with
    | nil => simp [lcmap]
    | cons b s' =>
      simp only [lcmap, List.map_cons, List.cons.injEq] at *
      rw [ih s' (fun c hc => hs c (by simp [hc])),
        low_eq_digit (hs b (by simp))]

/-- The claim's matching notion, stated from the spec's words: the query
occurs case-insensitively as a contiguous substring of the field
text. -/
def specOccursCI (q h : CStr) : Prop :=
  ∃ i ∈ List.range (h.length + 1),
    i + q.length ≤ h.length ∧ lcmap ((h.drop i).take q.length) = lcmap q

instance (q h : CStr) : Decidable (specOccursCI q h) := by
  unfold specOccursCI
  exact List.decidableBEx _ _

/-- The claim's per-record search predicate, stated from the spec's
words: the record is active and the query occurs case-insensitively in
the decimal id string, the system name, the test type, or the canonical
result text. -/
def specMatches (q : CStr) (r : TestRecord) : Prop :=
  r.active ≠ 0 ∧
    (specOccursCI q (natRepr r.test_id) ∨ specOccursCI q r.system_name ∨
      specOccursCI q r.test_type ∨ specOccursCI q (test_result_to_string r.test_result))

instance (q : CStr) (r : TestRecord) : Decidable (specMatches q r) := by
  unfold specMatches
  infer_instance

theorem strcasestrB_iff (h q : CStr) :
    strcasestrB h q = true ↔ specOccursCI q h := by
  unfold strcasestrB specOccursCI
  rw [containsSub_iff]
  constructor
  · rintro ⟨i, hi, h1, h2⟩
    refine ⟨i, ?_, ?_, ?_⟩
    · simpa [lcmap] using hi
    · simpa [lcmap] using h1
    · rw [← h2]
      simp [lcmap, List.map_take, List.map_drop]
  · rintro ⟨i, hi, h1, h2⟩
    refine ⟨i, ?_, ?_, ?_⟩
    · simpa [lcmap] using hi
    · simpa [lcmap] using h1
    · rw [← h2]
      simp [lcmap, List.map_take, List.map_drop]

theorem lcmap_digits (s : CStr) (hs : ∀ c ∈ s, isDigitC c = true) :
    lcmap s = s := by
  induction s with
  | nil => rfl
  | cons c r ih =>
    simp only [lcmap, List.map_cons] at *
    rw [low_digit_fix (hs c (by simp)), ih (fun x hx => hs x (by simp [hx]))]

theorem slice_digits (h : CStr) (i k : Nat) (hd : ∀ c ∈ h, isDigitC c = true) :
    ∀ c ∈ (h.drop i).take k, isDigitC c = true :=
  fun c hc => hd c (List.drop_subset i h (List.take_subset k _ hc))

theorem containsSub_digits_iff (h q : CStr) (hd : ∀ c ∈ h, isDigitC c = true) :
    containsSub h q = true ↔ specOccursCI q h := by
  rw [containsSub_iff]
  unfold specOccursCI
  constructor
  · rintro ⟨i, hi, h1, h2⟩
    exact ⟨i, hi, h1, by rw [h2]⟩
  · rintro ⟨i, hi, h1, h2⟩
    refine ⟨i, hi, h1, ?_⟩
    have hs := slice_digits h i q.length hd
    rw [lcmap_digits _ hs] at h2
    exact ((lcmap_eq_digits q _ hs).mp h2.symm).symm

/-! ## Trimming lemmas -/

theorem length_dropWhile_le (p : Nat → Bool) (l : CStr) :
    (l.dropWhile p).length ≤ l.length := by
  induction l with
  | nil => simp
  | cons c r ih =>
    rw [List.dropWhile_cons]
    split
    · simp only [List.length_cons]
      omega
    · simp

theorem dropWhile_eq_self_of_length (p : Nat → Bool) (l : CStr)
    (h : (l.dropWhile p).length = l.length) : l.dropWhile p = l := by
  cases l with
  | nil => rfl
  | cons c r =>
    rw [List.dropWhile_cons] at h ⊢
    by_cases hp : p c = true
    · exfalso
      rw [if_pos hp] at h
      have := length_dropWhile_le p r
      simp at h
      omega
    · rw [if_neg hp]

theorem trimR_eq_of_trimS (q : CStr) (h : trimS q = q) : trimR q = q := by
  have h1 : (trimR q).length ≤ q.length := by
    unfold trimR
    rw [List.length_reverse]
    calc (q.reverse.dropWhile isSpaceC).length ≤ q.reverse.length :=
          length_dropWhile_le _ _
      _ = q.length := List.length_reverse q
  have h2 : (trimS q).length ≤ (trimR q).length := length_dropWhile_le _ _
  rw [h] at h2
  have hlen : (q.reverse.dropWhile isSpaceC).length = q.reverse.length := by
    unfold trimR at h1 h2
    rw [List.length_reverse] at h1 h2
    rw [List.length_reverse]
    omega
  unfold trimR
  rw [dropWhile_eq_self_of_length _ _ hlen, List.reverse_reverse]

/-! ## Active-flag helpers -/

/-- The boolean-`active` predicate of the data model: every record's
`active` is 0 or 1. -/
def dbBoolActive (db : Database) : Prop :=
  ∀ r ∈ db.records, r.active = 0 ∨ r.active = 1

instance (db : Database) : Decidable (dbBoolActive db) := by
  unfold dbBoolActive
  infer_instance

/-- A data line whose fifth column is harmless for the boolean-`active`
invariant: absent, not fully numeric (defaults to 0), or 0/1. -/
def goodActiveLine (l : CStr) : Prop :=
  ∀ t, (tokens (stripCR l)).get? 4 = some t →
    (parseIntFull t).getD 0 = 0 ∨ (parseIntFull t).getD 0 = 1

theorem parseLine_active (l : CStr) (r : TestRecord) (hl : goodActiveLine l)
    (h : parseLine l = some r) : r.active = 0 ∨ r.active = 1 := by
  cases htok : tokens (stripCR l) with
  | nil =>
    simp only [parseLine, htok] at h
    exact Option.noConfusion h
  | cons t1 rest =>
    simp only [parseLine, htok] at h
    split at h
    · obtain rfl := Option.some.inj h
      cases hg : rest.get? 3 with
      | none => simp [hg]
      | some t =>
        simp only [hg]
        refine hl t ?_
        rw [htok]
        exact hg
    · exact Option.noConfusion h

theorem mem_setActiveFirst (id : Nat) (v : Int) (l : List TestRecord)
    (x : TestRecord) (h : x ∈ setActiveFirst id v l) : x ∈ l ∨ x.active = v := by
  induction l with
  | nil => cases h
  | cons r rest ih =>
    unfold setActiveFirst at h
    split at h
    · rcases List.mem_cons.mp h with rfl | h
      · exact Or.inr rfl
      · exact Or.inl (by simp [h])
    · rcases List.mem_cons.mp h with rfl | h
      · exact Or.inl (by simp)
      · rcases ih h with h | h
        · exact Or.inl (by simp [h])
        · exact Or.inr h

theorem mem_removeFirst (id : Nat) (l : List TestRecord) (x : TestRecord)
    (h : x ∈ removeFirst id l) : x ∈ l := by
  induction l with
  | nil => cases h
  | cons r rest ih =>
    unfold removeFirst at h
    split at h
    · exact List.mem_cons_of_mem r h
    · rcases List.mem_cons.mp h with rfl | h
      · exact List.mem_cons_self _ _
      · exact List.mem_cons_of_mem r (ih h)

theorem mem_replaceFirst (id : Nat) (r' : TestRecord) (l : List TestRecord)
    (x : TestRecord) (h : x ∈ replaceFirst id r' l) : x ∈ l ∨ x = r' := by
  induction l with
  | nil => cases h
  | cons r rest ih =>
    unfold replaceFirst at h
    split at h
    · rcases List.mem_cons.mp h with rfl | h
      · exact Or.inr rfl
      · exact Or.inl (by simp [h])
    · rcases List.mem_cons.mp h with rfl | h
      · exact Or.inl (by simp)
      · rcases ih h with h | h
        · exact Or.inl (by simp [h])
        · exact Or.inr h

theorem apply_edits_active (edits : List Edit) (r : TestRecord) :
    (edits.foldl apply_edit r).active = r.active := by
  induction edits generalizing r with
  | nil => rfl
  | cons e rest ih =>
    rw [List.foldl_cons, ih]
    cases e <;> rfl

theorem set_active_self (r : TestRecord) (v : Int) (h : r.active = v) :
    { r with active := v } = r := by
  cases r
  simp_all

instance (f : CStr) : Decidable (goodField f) := by
  unfold goodField
  infer_instance

instance (r : TestRecord) : Decidable (goodRecord r) := by
  unfold goodRecord
  infer_instance

/-! # The claims -/

/-- C3: for every store whose record count equals the capacity bound of
10000 (`MAX_RECORDS`), `add_new_record` fails with the capacity error
and leaves the store (records and `next_id`) and the file unchanged. -/
theorem add_at_capacity_rejected (db : Database) (file : List CStr)
    (name ty : CStr) (res : TestResult) (saveOk : Bool)
    (h : db.records.length = MAX_RECORDS) :
    add_new_record db file name ty res saveOk = (db, file, .dbFull) := by
  unfold add_new_record
  rw [if_pos (by omega)]

/-- A store of exactly `MAX_RECORDS` identical records, for the C3
witness. -/
def full_db : Database :=
  Database.mk (List.replicate 10000 ⟨1, sc "Sys", sc "Typ", .pending, 1⟩) 2

/-- Witness for C3: a store of exactly 10000 records is rejected. -/
theorem add_at_capacity_rejected_witness :
    full_db.records.length = MAX_RECORDS ∧
    add_new_record full_db [] (sc "AAA") (sc "BBB") .failed true =
      (full_db, [], .dbFull) :=
  ⟨by simp only [full_db, List.length_replicate]; rfl,
   add_at_capacity_rejected _ _ _ _ _ _
     (by simp only [full_db, List.length_replicate]; rfl)⟩

/-- C4: for every store below capacity, an `add_new_record` whose commit
fails drops the appended record — the records list returns exactly to
its pre-operation value and the file is untouched — while the consumed
id (the pre-operation `next_id`, reported in the outcome) is not
reclaimed: `next_id` ends one greater than the allocated id, so the
counter has moved past it for good. -/
theorem add_commit_failure_keeps_consumed_id (db : Database) (file : List CStr)
    (name ty : CStr) (res : TestResult)
    (hcap : db.records.length < MAX_RECORDS) :
    add_new_record db file name ty res false =
      ({ db with next_id := db.next_id + 1 }, file, .saveFailed db.next_id) := by
  unfold add_new_record get_next_test_id
  rw [if_neg (by omega)]
  rfl

/-- Witness for C4: a failed commit on a 1-record store keeps the
records and advances `next_id` from 7 to 8, with id 7 consumed. -/
theorem add_commit_failure_keeps_consumed_id_witness :
    (Database.mk [⟨3, sc "Sys", sc "Typ", .pending, 1⟩] 7).records.length < MAX_RECORDS ∧
    add_new_record (Database.mk [⟨3, sc "Sys", sc "Typ", .pending, 1⟩] 7)
        [headerS] (sc "AAA") (sc "BBB") .failed false =
      (Database.mk [⟨3, sc "Sys", sc "Typ", .pending, 1⟩] 8, [headerS], .saveFailed 7) :=
  ⟨by simp [MAX_RECORDS],
   add_commit_failure_keeps_consumed_id _ _ _ _ _ (by simp [MAX_RECORDS])⟩

/-- C7: after every successful `load_database`, `next_id` equals the
maximum id among the loaded records plus one; with no data rows it
equals 1; and it is strictly greater than every id present in the
store. -/
theorem load_sets_next_id (lines : List CStr) (db : Database)
    (h : load_database lines = some db) :
    db.next_id = maxId db.records + 1 ∧
    (db.records = [] → db.next_id = 1) ∧
    ∀ r ∈ db.records, r.test_id < db.next_id := by
  cases lines with
  | nil => exact Option.noConfusion h
  | cons hdr rows =>
    obtain rfl := Option.some.inj h
    refine ⟨rfl, ?_, ?_⟩
    · intro hempty
      show maxId (loadRows rows 0) + 1 = 1
      have : loadRows rows 0 = [] := hempty
      rw [this]
      rfl
    · intro r hr
      have h2 : r.test_id ≤ maxId (loadRows rows 0) := mem_le_maxId _ r hr
      show r.test_id < maxId (loadRows rows 0) + 1
      omega

/-- The lines and resulting store of the C7 witness. -/
def w7lines : List CStr := [headerS, sc "7,AAA,BBB,Failed,1", sc "3,CCC,DDD,Success,0"]

/-- The store `w7lines` loads to. -/
def w7db : Database :=
  Database.mk [⟨7, sc "AAA", sc "BBB", .failed, 1⟩,
               ⟨3, sc "CCC", sc "DDD", .success, 0⟩] 8

/-- Witness for C7: loading rows with ids 7 and 3 sets `next_id`
to 8 = max + 1. -/
theorem load_sets_next_id_witness :
    load_database w7lines = some w7db ∧
    w7db.next_id = maxId w7db.records + 1 :=
  ⟨by decide, (load_sets_next_id w7lines w7db (by decide)).1⟩

/-- C2 (amended): the encode/decode round trip holds for every store of
at most `MAX_RECORDS` records whose records all have a positive id, a
valid (non-`INVALID_RESULT`) result, and nonempty system-name and
test-type fields of at most 99 bytes containing neither the comma
delimiter nor line breaks: reading back `save_database`'s output with
`load_database` reproduces the records field-for-field, in order.  (As
stated — for any store with merely comma-free fields — the claim fails:
see the counterexample, where an empty field makes `strtok` collapse
the adjacent delimiters and shift the remaining fields.) -/
theorem encode_decode_roundtrip (db : Database)
    (hcap : db.records.length ≤ MAX_RECORDS)
    (hg : ∀ r ∈ db.records, goodRecord r) :
    (load_database (save_lines db)).map Database.records = some db.records := by
  unfold save_lines load_database
  show some (loadRows (db.records.map save_line) 0) = some db.records
  rw [loadRows_map_save db.records 0 (by omega) hg]

/-- A well-formed two-record store for the C2 witness. -/
def w2db : Database :=
  Database.mk [⟨1, sc "API Gateway", sc "UnitTest", .passed, 1⟩,
               ⟨2, sc "DBX", sc "SysT", .pending, 0⟩] 3

/-- Witness for C2: the round trip reproduces a concrete two-record
store. -/
theorem encode_decode_roundtrip_witness :
    w2db.records.length ≤ MAX_RECORDS ∧ (∀ r ∈ w2db.records, goodRecord r) ∧
    (load_database (save_lines w2db)).map Database.records = some w2db.records :=
  ⟨by decide, by decide, encode_decode_roundtrip w2db (by decide) (by decide)⟩

/-- A store whose single record has empty (hence comma-free) text
fields: the C2 counterexample. -/
def c2db : Database := Database.mk [⟨5, [], [], .failed, 0⟩] 6

/-- Counterexample to C2 as stated: in `c2db` no field value contains
the comma delimiter, yet decoding the encoded store does not reproduce
the records — the encoded line `5,,,Failed,0` re-parses with
`systemName = "Failed"` and `testType = "0"` because `strtok` collapses
the empty columns. -/
theorem encode_decode_roundtrip_cex :
    (∀ r ∈ c2db.records,
      (∀ c ∈ r.system_name, c ≠ 44) ∧ (∀ c ∈ r.test_type, c ≠ 44)) ∧
    (load_database (save_lines c2db)).map Database.records =
      some [⟨5, sc "Failed", sc "0", .failed, 0⟩] ∧
    (load_database (save_lines c2db)).map Database.records ≠ some c2db.records := by
  refine ⟨by decide, by decide, by decide⟩

/-- C5 (amended): during load, a data line is silently skipped exactly
when `strtok` finds no token in it or `atoi` of its first token is not
positive (`"0"`, `"-3"`, a token with no leading digits); but a token
with leading digits followed by garbage, such as `"12abc"`, is *not*
skipped — `atoi` ignores the trailing garbage and the line yields a
record with the leading-digit value.  All other lines keep being
processed (the survivors are exactly the parsed rows, up to the
capacity bound) and a bad row never aborts the load. -/
theorem parseLine_eq_none_iff (l : CStr) :
    parseLine l = none ↔
      (tokens (stripCR l) = [] ∨
        ∃ t rest, tokens (stripCR l) = t :: rest ∧ atoi t ≤ 0) := by
  cases htok : tokens (stripCR l) with
  | nil =>
    simp only [parseLine, htok]
    simp
  | cons t1 rest =>
    simp only [parseLine, htok]
    by_cases hpos : 0 < atoi t1
    · rw [if_pos hpos]
      constructor
      · intro h
        exact Option.noConfusion h
      · rintro (h | ⟨t, rest', heq, hle⟩)
        · exact List.noConfusion h
        · obtain ⟨rfl, -⟩ := List.cons.inj heq
          exact absurd hle (by omega)
    · rw [if_neg hpos]
      constructor
      · intro _
        exact Or.inr ⟨t1, rest, rfl, by omega⟩
      · intro _
        rfl

theorem load_skip_rule (hdr : CStr) (rows : List CStr) :
    (∃ db, load_database (hdr :: rows) = some db ∧
      db.records = (rows.filterMap parseLine).take MAX_RECORDS) ∧
    (∀ l : CStr, parseLine l = none ↔
      (tokens (stripCR l) = [] ∨
        ∃ t rest, tokens (stripCR l) = t :: rest ∧ atoi t ≤ 0)) := by
  constructor
  · refine ⟨_, rfl, ?_⟩
    show loadRows rows 0 = _
    rw [loadRows_eq_filterMap rows 0, Nat.sub_zero]
  · exact parseLine_eq_none_iff

/-- Witness for C5: loads of a skipped row (`"0,..."`), a kept row, and
the borderline `"12abc"` row behave per the amended rule. -/
theorem load_skip_rule_witness :
    (∃ db, load_database [headerS, sc "0,AAA,BBB,Failed,1", sc "4,CCC,DDD,Passed,1"] =
        some db ∧
      db.records = ([sc "0,AAA,BBB,Failed,1", sc "4,CCC,DDD,Passed,1"].filterMap
        parseLine).take MAX_RECORDS) ∧
    parseLine (sc "0,AAA,BBB,Failed,1") = none :=
  ⟨(load_skip_rule headerS [sc "0,AAA,BBB,Failed,1", sc "4,CCC,DDD,Passed,1"]).1,
   ((load_skip_rule headerS []).2 (sc "0,AAA,BBB,Failed,1")).mpr
     (Or.inr ⟨sc "0", [sc "AAA", sc "BBB", sc "Failed", sc "1"], by decide, by decide⟩)⟩

/-- Counterexample to C5 as stated: the claim says a data line whose
first field has trailing non-digit characters, such as `"12abc"`, is
skipped and contributes no record; in fact `load_database` keeps it,
because `atoi("12abc")` is 12 > 0, and the line contributes a record
with id 12. -/
theorem load_skip_rule_cex :
    (load_database [headerS, sc "12abc,SysA,TypA,Passed,1"]).map Database.records =
      some [⟨12, sc "SysA", sc "TypA", .passed, 1⟩] ∧
    (load_database [headerS, sc "12abc,SysA,TypA,Passed,1"]).map Database.records ≠
      some [] := by
  refine ⟨by decide, by decide⟩

/-- C6: a result field that is no case-insensitive match of Failed,
Passed, Pending or Success is stored as `PENDING` during load, and the
load still succeeds; `string_to_test_result` itself returns the
distinguished `INVALID_RESULT`, distinct from all four valid values,
for any unrecognized or `NULL` input. -/
theorem invalid_result_degrades_to_pending :
    string_to_test_result none = .invalid ∧
    (∀ s : CStr,
      lcmap s ≠ lcmap (sc "Failed") → lcmap s ≠ lcmap (sc "Passed") →
      lcmap s ≠ lcmap (sc "Pending") → lcmap s ≠ lcmap (sc "Success") →
      string_to_test_result (some s) = .invalid) ∧
    (TestResult.invalid ≠ .failed ∧ TestResult.invalid ≠ .passed ∧
      TestResult.invalid ≠ .pending ∧ TestResult.invalid ≠ .success) ∧
    (∀ l r t, parseLine l = some r → (tokens (stripCR l)).get? 3 = some t →
      string_to_test_result (some t) = .invalid → r.test_result = .pending) ∧
    (∀ (hdr : CStr) (rows : List CStr), load_database (hdr :: rows) ≠ none) := by
  refine ⟨rfl, ?_, by decide, ?_, ?_⟩
  · intro s h1 h2 h3 h4
    simp only [string_to_test_result]
    rw [if_neg h1, if_neg h2, if_neg h3, if_neg h4]
  · intro l r t hpl ht hinv
    cases htok : tokens (stripCR l) with
    | nil =>
      simp only [parseLine, htok] at hpl
      exact Option.noConfusion hpl
    | cons t1 rest =>
      rw [htok] at ht
      simp only [parseLine, htok] at hpl
      split at hpl
      · obtain rfl := Option.some.inj hpl
        show (match rest.get? 2 with
              | none => TestResult.failed
              | some t =>
                if string_to_test_result (some t) = .invalid then TestResult.pending
                else string_to_test_result (some t)) = TestResult.pending
        have hg : rest.get? 2 = some t := ht
        rw [hg]
        simp only [if_pos hinv]
      · exact Option.noConfusion hpl
  · intro hdr rows h
    simp [load_database] at h

/-- The syntactically valid line with a garbage result token used by the
C6 witness. -/
def c6line : CStr := sc "3,SysA,TypA,Garbage,1"

/-- Witness for C6: `"Garbage"` maps to `INVALID_RESULT`, and the row
carrying it loads with result `PENDING`. -/
theorem invalid_result_degrades_to_pending_witness :
    string_to_test_result (some (sc "Garbage")) = .invalid ∧
    parseLine c6line = some ⟨3, sc "SysA", sc "TypA", .pending, 1⟩ :=
  ⟨invalid_result_degrades_to_pending.2.1 (sc "Garbage")
      (by decide) (by decide) (by decide) (by decide),
   by decide⟩

/-- A two-record store (ids 1 active, 2 soft-deleted) shared by the C1
and C8 witnesses. -/
def wdb : Database :=
  Database.mk [⟨1, sc "AAA", sc "BBB", .passed, 1⟩,
               ⟨2, sc "CCC", sc "DDD", .failed, 0⟩] 3

/-- The active record of `wdb`. -/
def wrec1 : TestRecord := ⟨1, sc "AAA", sc "BBB", .passed, 1⟩

/-- The soft-deleted record of `wdb`. -/
def wrec2 : TestRecord := ⟨2, sc "CCC", sc "DDD", .failed, 0⟩

/-- C1: soft delete is atomic with respect to commit failure.  When the
record found for the id has `active == 0` the operation reports the
already-deleted error and changes nothing.  When it has `active == 1`,
the operation flips it to 0 and commits the updated table to the file;
when the commit fails it writes `active = 1` back, leaving both the
in-memory store and the backing file exactly in their pre-operation
state. -/
theorem soft_delete_atomic (db : Database) (file : List CStr) (id : Nat)
    (r : TestRecord) (hf : find_record_by_id db.records id = some r) :
    (r.active = 0 → ∀ saveOk,
      delete_record db file id true saveOk = (db, file, .alreadyDeleted)) ∧
    (r.active = 1 →
      (∃ p s, db.records = p ++ r :: s ∧ (∀ x ∈ p, x.test_id ≠ id) ∧
        delete_record db file id true true =
          ({ db with records := p ++ { r with active := 0 } :: s },
           save_lines { db with records := p ++ { r with active := 0 } :: s },
           .saved)) ∧
      delete_record db file id true false = (db, file, .saveFailed)) := by
  obtain ⟨hrid, p, s, hdec, hp⟩ := find_decomp _ _ _ hf
  constructor
  · intro h0 saveOk
    simp only [delete_record, hf]
    rw [if_pos ⟨trivial, h0⟩]
  · intro h1
    have hset0 : setActiveFirst id 0 db.records = p ++ { r with active := 0 } :: s := by
      rw [hdec]
      exact setActiveFirst_decomp p s r id 0 hp hrid
    have hset1 : setActiveFirst id 1 (p ++ { r with active := 0 } :: s) = db.records := by
      rw [setActiveFirst_decomp p s { r with active := 0 } id 1 hp hrid, hdec]
      cases r
      simp_all
    refine ⟨⟨p, s, hdec, hp, ?_⟩, ?_⟩
    · have heq : delete_record db file id true true =
          ({ db with records := setActiveFirst id 0 db.records },
           save_lines { db with records := setActiveFirst id 0 db.records },
           .saved) := by
        simp only [delete_record, hf]
        rw [if_neg (by simp [h1]), if_neg (by simp)]
        rfl
      rw [heq, hset0]
    · have heq : delete_record db file id true false =
          ({ db with records := setActiveFirst id 1 (setActiveFirst id 0 db.records) },
           file, .saveFailed) := by
        simp only [delete_record, hf]
        rw [if_neg (by simp [h1]), if_neg (by simp)]
        rfl
      rw [heq, hset0, hset1]

/-- Witness for C1: on `wdb`, soft delete of the active record 1 with a
failed commit leaves store and file unchanged, and soft delete of the
already-deleted record 2 reports the error. -/
theorem soft_delete_atomic_witness :
    find_record_by_id wdb.records 1 = some wrec1 ∧ wrec1.active = 1 ∧
    delete_record wdb [headerS] 1 true false = (wdb, [headerS], .saveFailed) ∧
    delete_record wdb [headerS] 2 true true = (wdb, [headerS], .alreadyDeleted) :=
  ⟨by decide, by decide,
   ((soft_delete_atomic wdb [headerS] 1 wrec1 (by decide)).2 (by decide)).2,
   (soft_delete_atomic wdb [headerS] 2 wrec2 (by decide)).1 (by decide) true⟩

/-- C8: permanent delete requires the target to be soft-deleted: when
the record found for the id has `active ≠ 0` the operation is refused
and the store is unchanged; when `active = 0`, exactly that record is
removed by compaction — the prefix before it and the suffix after it
survive in order — the count drops by one, and the reported outcome
follows the commit result. -/
theorem permanent_delete_requires_soft (db : Database) (file : List CStr)
    (id : Nat) (saveOk : Bool) (r : TestRecord)
    (hf : find_record_by_id db.records id = some r) :
    (r.active ≠ 0 →
      delete_record db file id false saveOk = (db, file, .mustSoftDeleteFirst)) ∧
    (r.active = 0 → ∃ p s,
      db.records = p ++ r :: s ∧ (∀ x ∈ p, x.test_id ≠ id) ∧
      (delete_record db file id false saveOk).1.records = p ++ s ∧
      (delete_record db file id false saveOk).1.records.length + 1 =
        db.records.length ∧
      (delete_record db file id false saveOk).2.2 =
        (if saveOk then .saved else .saveFailed)) := by
  obtain ⟨hrid, p, s, hdec, hp⟩ := find_decomp _ _ _ hf
  constructor
  · intro hne
    simp only [delete_record, hf]
    rw [if_neg (by simp), if_pos ⟨trivial, hne⟩]
  · intro h0
    have hrem : removeFirst id db.records = p ++ s := by
      rw [hdec]
      exact removeFirst_decomp p s r id hp hrid
    have heq : delete_record db file id false saveOk =
        ({ db with records := removeFirst id db.records },
         if saveOk then save_lines { db with records := removeFirst id db.records }
         else file,
         if saveOk then .saved else .saveFailed) := by
      simp only [delete_record, hf]
      rw [if_neg (by simp [h0]), if_neg (by simp [h0])]
      cases saveOk <;> rfl
    refine ⟨p, s, hdec, hp, ?_, ?_, ?_⟩
    · rw [heq]
      exact hrem
    · rw [heq]
      show (removeFirst id db.records).length + 1 = db.records.length
      rw [hrem, hdec]
      simp
      omega
    · rw [heq]

/-- Witness for C8: on `wdb`, permanent delete of the still-active
record 1 is refused, and permanent delete of the soft-deleted record 2
drops the count from 2 to 1. -/
theorem permanent_delete_requires_soft_witness :
    find_record_by_id wdb.records 2 = some wrec2 ∧ wrec2.active = 0 ∧
    delete_record wdb [headerS] 1 false true = (wdb, [headerS], .mustSoftDeleteFirst) ∧
    (delete_record wdb [headerS] 2 false true).1.records.length + 1 =
      wdb.records.length := by
  refine ⟨by decide, by decide,
    (permanent_delete_requires_soft wdb [headerS] 1 true wrec1 (by decide)).1
      (by decide), ?_⟩
  obtain ⟨p, s, -, -, -, hlen, -⟩ :=
    (permanent_delete_requires_soft wdb [headerS] 2 true wrec2 (by decide)).2
      (by decide)
  exact hlen

/-- C9: for every store and every whitespace-free query of at least 3
bytes, `search_records` returns exactly the records with a truthy
`active` flag in which the query occurs case-insensitively as a
substring of the decimal id string, the system name, the test type, or
the canonical result text — in table order (a filter of the table).
The store and the backing file are not touched: search involves no
commit and is modelled as a pure function of the store. -/
theorem search_spec (db : Database) (q : CStr)
    (htrim : trimS q = q) (hlen : 3 ≤ q.length) :
    search_records db q =
      some (db.records.filter (fun r => decide (specMatches q r))) := by
  have hR : trimR q = q := trimR_eq_of_trimS q htrim
  unfold search_records
  rw [if_neg (by rw [htrim]; omega), hR]
  congr 1
  apply List.filter_congr
  intro r _
  rw [Bool.eq_iff_iff]
  simp only [Bool.and_eq_true, decide_eq_true_eq, record_matches, Bool.or_eq_true,
    strcasestrB_iff, containsSub_digits_iff _ _ (natRepr_all_digits _), specMatches]
  tauto

/-- The spec's search example store: an active and an inactive
"API Gateway" record plus an unrelated active record. -/
def c9db : Database :=
  Database.mk [⟨1, sc "API Gateway", sc "UnitTest", .passed, 1⟩,
               ⟨2, sc "API Gateway", sc "UnitTest", .passed, 0⟩,
               ⟨3, sc "Other", sc "SysT", .pending, 1⟩] 4

/-- Witness for C9: searching `"API"` over `c9db` returns exactly the
active "API Gateway" record (id 1), excluding the inactive copy. -/
theorem search_spec_witness :
    trimS (sc "API") = sc "API" ∧ 3 ≤ (sc "API").length ∧
    search_records c9db (sc "API") =
      some (c9db.records.filter (fun r => decide (specMatches (sc "API") r))) ∧
    (c9db.records.filter (fun r => decide (specMatches (sc "API") r))).map
      TestRecord.test_id = [1] :=
  ⟨by decide, by decide, search_spec c9db (sc "API") (by decide) (by decide),
   by decide⟩

/-! ## State-shape helpers for the active-flag invariant -/

theorem mem_loadRows (ls : List CStr) (c : Nat) (r : TestRecord)
    (h : r ∈ loadRows ls c) : ∃ l ∈ ls, parseLine l = some r := by
  induction ls generalizing c with
  | nil => cases h
  | cons l rest ih =>
    unfold loadRows at h
    split at h
    · split at h
      · next r' heq =>
        rcases List.mem_cons.mp h with rfl | h
        · exact ⟨l, by simp, heq⟩
        · obtain ⟨l', hl', hp⟩ := ih _ h
          exact ⟨l', by simp [hl'], hp⟩
      · obtain ⟨l', hl', hp⟩ := ih _ h
        exact ⟨l', by simp [hl'], hp⟩
    · cases h

theorem add_new_record_records (db : Database) (file : List CStr)
    (name ty : CStr) (res : TestResult) (saveOk : Bool) :
    (add_new_record db file name ty res saveOk).1.records = db.records ∨
    (add_new_record db file name ty res saveOk).1.records =
      db.records ++ [⟨db.next_id, name, ty, res, 1⟩] := by
  unfold add_new_record get_next_test_id
  by_cases hcap : MAX_RECORDS ≤ db.records.length
  · rw [if_pos hcap]
    left
    rfl
  · rw [if_neg hcap]
    cases saveOk
    · left
      rfl
    · right
      rfl

theorem delete_record_records (db : Database) (file : List CStr) (id : Nat)
    (soft saveOk : Bool) :
    (delete_record db file id soft saveOk).1.records = db.records ∨
    (delete_record db file id soft saveOk).1.records =
      setActiveFirst id 0 db.records ∨
    (delete_record db file id soft saveOk).1.records =
      setActiveFirst id 1 (setActiveFirst id 0 db.records) ∨
    (delete_record db file id soft saveOk).1.records =
      removeFirst id db.records := by
  rcases hf : find_record_by_id db.records id with - | r
  · left
    simp [delete_record, hf]
  · by_cases hact : r.active = 0
    · cases soft
      · right
        right
        right
        cases saveOk <;> simp [delete_record, hf, hact]
      · left
        simp [delete_record, hf, hact]
    · cases soft
      · left
        simp [delete_record, hf, hact]
      · cases saveOk
        · right
          right
          left
          simp [delete_record, hf, hact]
        · right
          left
          simp [delete_record, hf, hact]

theorem recover_record_records (db : Database) (file : List CStr) (id : Nat)
    (saveOk : Bool) :
    (recover_record db file id saveOk).1.records = db.records ∨
    (recover_record db file id saveOk).1.records =
      setActiveFirst id 1 db.records ∨
    (recover_record db file id saveOk).1.records =
      setActiveFirst id 0 (setActiveFirst id 1 db.records) := by
  rcases hf : find_record_by_id db.records id with - | r
  · left
    simp [recover_record, hf]
  · by_cases hact : r.active = 0
    · cases saveOk
      · right
        right
        simp [recover_record, hf, hact]
      · right
        left
        simp [recover_record, hf, hact]
    · left
      simp [recover_record, hf, hact]

theorem update_record_records (db : Database) (file : List CStr) (id : Nat)
    (edits : List Edit) (doSave saveOk : Bool) :
    (update_record_by_id db file id edits doSave saveOk).1.records = db.records ∨
    ∃ r, find_record_by_id db.records id = some r ∧
      ((update_record_by_id db file id edits doSave saveOk).1.records =
          replaceFirst id (edits.foldl apply_edit r) db.records ∨
       (update_record_by_id db file id edits doSave saveOk).1.records =
          replaceFirst id r
            (replaceFirst id (edits.foldl apply_edit r) db.records)) := by
  rcases hf : find_record_by_id db.records id with - | r
  · left
    simp [update_record_by_id, hf]
  · by_cases hact : r.active = 0
    · left
      simp [update_record_by_id, hf, hact]
    · cases doSave
      · left
        simp [update_record_by_id, hf, hact]
      · cases saveOk
        · refine Or.inr ⟨r, rfl, Or.inr ?_⟩
          simp [update_record_by_id, hf, hact]
        · refine Or.inr ⟨r, rfl, Or.inl ?_⟩
          simp [update_record_by_id, hf, hact]

theorem setActiveFirst_preserves (db : List TestRecord) (id : Nat) (v : Int)
    (hv : v = 0 ∨ v = 1) (h : ∀ r ∈ db, r.active = 0 ∨ r.active = 1) :
    ∀ r ∈ setActiveFirst id v db, r.active = 0 ∨ r.active = 1 := by
  intro r hr
  rcases mem_setActiveFirst id v db r hr with hmem | hact
  · exact h r hmem
  · rw [hact]
    exact hv

/-- C10 (amended): every mutating operation preserves the
boolean-`active` invariant (all `active` fields 0 or 1), `create`
establishes it, and `load_database` establishes it provided every data
row's fifth-column token is absent, fails the full numeric parse
(defaulting to 0), or parses to 0 or 1.  As stated — including loads of
files whose fifth column holds an arbitrary numeric token — the claim
is false: load stores such a token's value verbatim (see the
counterexample with active = 7). -/
theorem active_bool_preservation :
    (∀ (hdr : CStr) (rows : List CStr) (db : Database),
      (∀ l ∈ rows, goodActiveLine l) → load_database (hdr :: rows) = some db →
      dbBoolActive db) ∧
    dbBoolActive create_db ∧
    (∀ db file name ty res saveOk, dbBoolActive db →
      dbBoolActive (add_new_record db file name ty res saveOk).1) ∧
    (∀ db file id soft saveOk, dbBoolActive db →
      dbBoolActive (delete_record db file id soft saveOk).1) ∧
    (∀ db file id saveOk, dbBoolActive db →
      dbBoolActive (recover_record db file id saveOk).1) ∧
    (∀ db file id edits doSave saveOk, dbBoolActive db →
      dbBoolActive (update_record_by_id db file id edits doSave saveOk).1) := by
  refine ⟨?_, ?_, ?_, ?_, ?_, ?_⟩
  · intro hdr rows db hrows h
    obtain rfl := Option.some.inj h
    intro r hr
    obtain ⟨l, hl, hp⟩ := mem_loadRows rows 0 r hr
    exact parseLine_active l r (hrows l hl) hp
  · intro r hr
    cases hr
  · intro db file name ty res saveOk hdb r hr
    rcases add_new_record_records db file name ty res saveOk with heq | heq
    · exact hdb r (heq ▸ hr)
    · rw [heq] at hr
      rcases List.mem_append.mp hr with h | h
      · exact hdb r h
      · simp at h
        rw [h]
        right
        rfl
  · intro db file id soft saveOk hdb r hr
    rcases delete_record_records db file id soft saveOk with heq | heq | heq | heq
    · exact hdb r (heq ▸ hr)
    · rw [heq] at hr
      exact setActiveFirst_preserves _ _ _ (Or.inl rfl) hdb r hr
    · rw [heq] at hr
      exact setActiveFirst_preserves _ _ _ (Or.inr rfl)
        (setActiveFirst_preserves _ _ _ (Or.inl rfl) hdb) r hr
    · rw [heq] at hr
      exact hdb r (mem_removeFirst id db.records r hr)
  · intro db file id saveOk hdb r hr
    rcases recover_record_records db file id saveOk with heq | heq | heq
    · exact hdb r (heq ▸ hr)
    · rw [heq] at hr
      exact setActiveFirst_preserves _ _ _ (Or.inr rfl) hdb r hr
    · rw [heq] at hr
      exact setActiveFirst_preserves _ _ _ (Or.inl rfl)
        (setActiveFirst_preserves _ _ _ (Or.inr rfl) hdb) r hr
  · intro db file id edits doSave saveOk hdb r hr
    rcases update_record_records db file id edits doSave saveOk with heq | ⟨r0, hf, heq | heq⟩
    · exact hdb r (heq ▸ hr)
    · rw [heq] at hr
      have hr0 : r0 ∈ db.records := List.mem_of_find?_eq_some hf
      rcases mem_replaceFirst _ _ _ r hr with h | h
      · exact hdb r h
      · rw [h, apply_edits_active]
        exact hdb r0 hr0
    · rw [heq] at hr
      have hr0 : r0 ∈ db.records := List.mem_of_find?_eq_some hf
      rcases mem_replaceFirst _ _ _ r hr with h | h
      · rcases mem_replaceFirst _ _ _ r h with h2 | h2
        · exact hdb r h2
        · rw [h2, apply_edits_active]
          exact hdb r0 hr0
      · rw [h]
        exact hdb r0 hr0

/-- Witness for C10: the invariant holds of `wdb` and is preserved by a
committed `add_new_record` on it. -/
theorem active_bool_preservation_witness :
    dbBoolActive wdb ∧
    dbBoolActive (add_new_record wdb [headerS] (sc "EEE") (sc "FFF") .passed true).1 :=
  ⟨by decide,
   active_bool_preservation.2.2.1 wdb [headerS] (sc "EEE") (sc "FFF") .passed true
     (by decide)⟩

/-- The lines of the C10 counterexample: a numeric `Active` token that
is neither 0 nor 1. -/
def c10lines : List CStr := [headerS, sc "1,Sys,Typ,Passed,7"]

/-- The store `c10lines` loads to: `active = 7`. -/
def c10db : Database := Database.mk [⟨1, sc "Sys", sc "Typ", .passed, 7⟩] 2

/-- Counterexample to C10 as stated: loading a file whose fifth column
holds the numeric token `"7"` produces a reachable store whose record
has `active = 7`, which is neither 0 nor 1. -/
theorem active_bool_cex :
    load_database c10lines = some c10db ∧ ¬ dbBoolActive c10db :=
  ⟨by decide, by decide⟩

end TDM
